import Mathlib

/-!
Verification of the migration-selection and execution-ordering logic of
`rethinkdb-ts-migrate` (`src/migrate.ts` and the compiled variant shipped in the
package). The TypeScript source is shallowly embedded: filenames and
timestamps are Lean `String`s, JavaScript string primitives (`indexOf`,
`lastIndexOf`, `substring`) are given explicit executable definitions, the
`_migrations` table is a list of rows, and the RethinkDB `orderBy` on the
`timestamp` index is insertion sort by the timestamp field. User-supplied
migration procedures (`code.up` / `code.down`), which can only succeed or
throw, are modelled by Boolean-valued oracles.
-/

namespace Migrate

/-! ## JavaScript string primitives (as used by `migrate.ts`) -/

/-- First index of the character `c` in a character list, if any
(`String.prototype.indexOf` helper). -/
def charIndexOfAux (c : Char) : List Char → Option Nat
  | [] => none
  | x :: xs => if x = c then some 0 else (charIndexOfAux c xs).map (· + 1)

/-- JavaScript `s.indexOf(c)`: index of the first occurrence, `-1` if absent. -/
def jsIndexOf (s : List Char) (c : Char) : Int :=
  match charIndexOfAux c s with
  | some i => (i : Int)
  | none => -1

/-- JavaScript `s.lastIndexOf(c)`: index of the last occurrence, `-1` if absent. -/
def jsLastIndexOf (s : List Char) (c : Char) : Int :=
  match charIndexOfAux c s.reverse with
  | some i => ((s.length - 1 - i : Nat) : Int)
  | none => -1

/-- JavaScript `s.substring(a, b)`: both arguments are clamped to `[0, length]`
and swapped when out of order. -/
def jsSubstring (s : List Char) (a b : Int) : List Char :=
  let n : Int := s.length
  let a' := min (max a 0) n
  let b' := min (max b 0) n
  let lo := min a' b'
  let hi := max a' b'
  (s.take hi.toNat).drop lo.toNat

/-- Lexicographic character-list comparison: the order JavaScript's `<` / `>`
computes on strings (compared code unit by code unit). -/
def charListLtb : List Char → List Char → Bool
  | [], [] => false
  | [], _ :: _ => true
  | _ :: _, [] => false
  | a :: as, b :: bs => if a < b then true else if b < a then false else charListLtb as bs

/-- JavaScript `a < b` on strings. The source's filter `migration.timestamp >
completedMigration.timestamp` is `jsLtb completedMigration.timestamp
migration.timestamp`. -/
def jsLtb (a b : String) : Bool := charListLtb a.data b.data

/-! ## Data model -/

/-- The RethinkDB table backing the ledger (`MIGRATION_TABLE_NAME` in the source). -/
def MIGRATION_TABLE_NAME : String := "_migrations"

/-- A parsed on-disk migration identity (`migrate.ts` lines 90-97). -/
structure MigrationInfo where
  name : String
  timestamp : String
  filename : String
deriving DecidableEq, Repr

/-- A row of the `_migrations` table (interface `Migration` in the source:
`{id, name, timestamp}`; `id` is the RethinkDB-generated primary key). -/
structure LedgerEntry where
  id : String
  name : String
  timestamp : String
deriving DecidableEq, Repr

/-- The observable persistent state one invocation works with: the directory
listing of `root/migrations` and the rows of the `_migrations` table. -/
structure DbState where
  files : List String
  table : List LedgerEntry
deriving DecidableEq, Repr

/-! ## Filename matching and parsing -/

/-- A JavaScript regular-expression line terminator (what `.` does not match). -/
def isLineTerm (c : Char) : Bool :=
  c == '\n' || c == '\r' || c.toNat == 0x2028 || c.toNat == 0x2029

/-- The test `rxMigrationFile = /^\d{14}-.*\.(js|ts)$/` of `migrate.ts` line 11:
fourteen digits, a dash, any characters other than line terminators, and a
final `.js` or `.ts` extension. -/
def matchesMigrationFile (f : String) : Bool :=
  let cs := f.data
  decide (18 ≤ cs.length) &&
  (cs.take 14).all Char.isDigit &&
  (cs.get? 14 == some '-') &&
  ((cs.drop 15).take (cs.length - 18)).all (fun c => !isLineTerm c) &&
  (cs.drop (cs.length - 3) == ".js".data || cs.drop (cs.length - 3) == ".ts".data)

/-- The extension a matching filename carries: its last three characters. -/
def extOf (f : String) : String := String.mk (f.data.drop (f.data.length - 3))

/-- Identity parsing of `migrate.ts` lines 90-97: `name` is the text between the
first dash and the last dot, `timestamp` is the text before the first dash. -/
def parseMigrationFile (filename : String) : MigrationInfo :=
  let cs := filename.data
  let tsix := jsIndexOf cs '-'
  { name := String.mk (jsSubstring cs (tsix + 1) (jsLastIndexOf cs '.'))
    timestamp := String.mk (jsSubstring cs 0 tsix)
    filename := filename }

/-- Lines 88-97 of `migrate.ts`: keep the filenames matching `rxMigrationFile`
and parse each one, in directory-scan order. -/
def parseCandidates (files : List String) : List MigrationInfo :=
  (files.filter (fun file => matchesMigrationFile file)).map parseMigrationFile

/-- The filter of `migrate.ts` lines 98-100: keep a candidate exactly when the
JavaScript string comparison `migration.timestamp > completedMigration.timestamp`
holds, or keep everything when there is no completed migration. -/
def pendingMigrations (completedMigration : Option LedgerEntry) (files : List String) :
    List MigrationInfo :=
  (parseCandidates files).filter (fun migration =>
    match completedMigration with
    | some completed => jsLtb completed.timestamp migration.timestamp
    | none => true)

/-- `getMigrationsExcept` of `migrate.ts` lines 81-111 (minus the `require`
step, modelled separately): scan, parse, filter against the latest completed
migration, then `slice(0, numToApply)` unless `numToApply` is `-1`. -/
def getMigrationsExcept (completedMigration : Option LedgerEntry) (files : List String)
    (numToApply : Int) : List MigrationInfo :=
  let migrations := pendingMigrations completedMigration files
  if numToApply ≠ -1 then migrations.take numToApply.toNat else migrations

/-! ## Module paths resolved by the two loading paths -/

/-- `path.join` for the segments this program joins (no trailing slashes, no
`..` segments), which is plain concatenation with a separator. -/
def pathJoin (a b : String) : String := a ++ "/" ++ b

/-- Forward loading path, `migrate.ts` line 104: `require(path.join(dir,
migration.filename))` with `dir = path.join(root, 'migrations')`. -/
def forwardFilepath (root : String) (migration : MigrationInfo) : String :=
  pathJoin (pathJoin root "migrations") migration.filename

/-- Backward loading path, `requireMigrations` lines 116-126: the filename is
rebuilt as `migration.timestamp + '-' + migration.name`. -/
def requireFilename (migration : LedgerEntry) : String :=
  migration.timestamp ++ "-" ++ migration.name

/-- Backward loading path, full filepath (`migrate.ts` line 119). -/
def requireFilepath (root : String) (migration : LedgerEntry) : String :=
  pathJoin (pathJoin root "migrations") (requireFilename migration)

/-! ## The ledger read: `orderBy({index: 'timestamp'})` -/

/-- The ordering RethinkDB's `timestamp` index sorts rows by:
`a.timestamp ≤ b.timestamp`, stated through the executable comparison. -/
abbrev tsLE (a b : LedgerEntry) : Prop := jsLtb b.timestamp a.timestamp = false

/-- The read `r.table('_migrations').orderBy({index: 'timestamp'}).run()`:
the rows sorted ascending by `timestamp`. -/
def orderByTimestamp (table : List LedgerEntry) : List LedgerEntry :=
  List.insertionSort tsLE table

/-! ## The executor

A migration procedure either completes or throws; `upOk` / `downOk` oracles
record which. `genId` supplies the primary keys RethinkDB generates for
inserted rows, indexed by insertion count within the run. The trace fields
record everything one invocation observably does: the final table, the
procedures invoked (in order), the console log, and whether the loop ran to
completion. -/

/-- Console output of `logInfo` / `logError`, abstracted from its formatting. -/
inductive LogEvent
  | noNewMigrations
  | upStart (timestamp name : String)
  | downStart (timestamp name : String)
  | migrationFailed (name : String)
  | upSuccessful
  | downSuccessful
deriving DecidableEq, Repr

/-- Result of the per-migration loop of `up` (lines 158-172) or `down`
(lines 195-210); `α` is `MigrationInfo` forward and `LedgerEntry` backward. -/
structure LoopResult (α : Type) where
  table : List LedgerEntry
  invoked : List α
  log : List LogEvent
  completed : Bool
deriving Repr

/-- Result of one invocation of `up` or `down`. `drained` records whether
`r.getPoolMaster().drain()` ran before returning. -/
structure RunResult (α : Type) where
  state : DbState
  invoked : List α
  log : List LogEvent
  drained : Bool
deriving Repr

/-- The forward loop of `migrate.ts` lines 158-172: log the start banner, run
`migration.code.up(r)`; on a throw log the failure and return at once; on
success insert `{name, timestamp}` (RethinkDB adds a generated `id`) and
continue. Falling off the end logs `Migration Successful`. -/
def upLoop (upOk : MigrationInfo → Bool) (genId : Nat → String) :
    Nat → List MigrationInfo → List LedgerEntry → LoopResult MigrationInfo
  | _, [], table => ⟨table, [], [.upSuccessful], true⟩
  | k, migration :: rest, table =>
    if upOk migration then
      let r := upLoop upOk genId (k + 1) rest
        (table ++ [⟨genId k, migration.name, migration.timestamp⟩])
      ⟨r.table, migration :: r.invoked, .upStart migration.timestamp migration.name :: r.log,
        r.completed⟩
    else
      ⟨table, [migration],
        [.upStart migration.timestamp migration.name, .migrationFailed migration.name], false⟩

/-- `up` of `src/migrate.ts` lines 143-174 (after `connectToDb`, which is
modelled separately): read the ledger sorted by timestamp, take its last row
as `latest`, plan with `getMigrationsExcept`, return early when nothing is
planned, otherwise run the loop. This variant never drains the pool. -/
def up (all : Bool) (upOk : MigrationInfo → Bool) (genId : Nat → String) (s : DbState) :
    RunResult MigrationInfo :=
  let completedMigrations := orderByTimestamp s.table
  let latest := completedMigrations.getLast?
  let numToApply : Int := if all then -1 else 1
  let migrations := getMigrationsExcept latest s.files numToApply
  if migrations.length < 1 then
    ⟨s, [], [.noNewMigrations], false⟩
  else
    let r := upLoop upOk genId 0 migrations s.table
    ⟨⟨s.files, r.table⟩, r.invoked, r.log, false⟩

/-- `up` of the compiled variant (`part_000` lines 102-135): identical except
that `await r.getPoolMaster()?.drain()` runs after the success log, so the
pool is drained exactly when the loop ran to completion. -/
def upCompiled (all : Bool) (upOk : MigrationInfo → Bool) (genId : Nat → String) (s : DbState) :
    RunResult MigrationInfo :=
  let completedMigrations := orderByTimestamp s.table
  let latest := completedMigrations.getLast?
  let numToApply : Int := if all then -1 else 1
  let migrations := getMigrationsExcept latest s.files numToApply
  if migrations.length < 1 then
    ⟨s, [], [.noNewMigrations], false⟩
  else
    let r := upLoop upOk genId 0 migrations s.table
    ⟨⟨s.files, r.table⟩, r.invoked, r.log, r.completed⟩

/-- `r.table('_migrations').get(id).delete()`: remove the row with the given
primary key. -/
def deleteById (table : List LedgerEntry) (id : String) : List LedgerEntry :=
  table.filter (fun row => row.id != id)

/-- The rollback plan of `migrate.ts` lines 191-193: all rows reversed when
`all`, otherwise the single last row of the (ascending) ledger read. -/
def downPlan (all : Bool) (completedMigrations : List LedgerEntry) : List LedgerEntry :=
  if all then completedMigrations.reverse
  else
    match completedMigrations.getLast? with
    | some last => [last]
    | none => []

/-- The backward loop of `migrate.ts` lines 195-210: log the banner, run
`migration.code.down(r)`; on a throw log the failure and return at once; on
success delete the row by `id` and continue. -/
def downLoop (downOk : LedgerEntry → Bool) :
    List LedgerEntry → List LedgerEntry → LoopResult LedgerEntry
  | [], table => ⟨table, [], [.downSuccessful], true⟩
  | migration :: rest, table =>
    if downOk migration then
      let r := downLoop downOk rest (deleteById table migration.id)
      ⟨r.table, migration :: r.invoked, .downStart migration.timestamp migration.name :: r.log,
        r.completed⟩
    else
      ⟨table, [migration],
        [.downStart migration.timestamp migration.name, .migrationFailed migration.name], false⟩

/-- `down` of `src/migrate.ts` lines 179-212: read the ledger sorted by
timestamp, return early when it is empty, otherwise roll back the planned
rows. This variant never drains the pool. -/
def down (all : Bool) (downOk : LedgerEntry → Bool) (s : DbState) : RunResult LedgerEntry :=
  let completedMigrations := orderByTimestamp s.table
  if completedMigrations.length = 0 then
    ⟨s, [], [.noNewMigrations], false⟩
  else
    let r := downLoop downOk (downPlan all completedMigrations) s.table
    ⟨⟨s.files, r.table⟩, r.invoked, r.log, false⟩

/-- `down` of the compiled variant (`part_000` lines 140-175): identical except
the pool is drained after the success log, i.e. exactly when the loop ran to
completion. -/
def downCompiled (all : Bool) (downOk : LedgerEntry → Bool) (s : DbState) :
    RunResult LedgerEntry :=
  let completedMigrations := orderByTimestamp s.table
  if completedMigrations.length = 0 then
    ⟨s, [], [.noNewMigrations], false⟩
  else
    let r := downLoop downOk (downPlan all completedMigrations) s.table
    ⟨⟨s.files, r.table⟩, r.invoked, r.log, r.completed⟩

/-! ## Bootstrap: `connectToDb` (`migrate.ts` lines 50-72) -/

/-- Operations `connectToDb` issues against the server, in order. -/
inductive DbOp
  | connectPool
  | dbList
  | dbCreate (db : String)
  | tableList
  | tableCreate (table : String)
  | indexCreate (table index : String)
  | indexWait (table : String)
  | waitReady (db : String)
deriving DecidableEq, Repr

/-- The server-side state `connectToDb` can create: databases, tables of the
configured database, and secondary indexes. -/
structure Server where
  dbs : List String
  tables : List String
  indexes : List (String × String)
deriving DecidableEq, Repr

/-- `connectToDb` of `migrate.ts` lines 50-72: connect the pool; create the
database when `dbList` lacks it; create the `_migrations` table, its
`timestamp` index, and wait on the index when `tableList` lacks the table;
finally wait for the database to be ready for writes. -/
def connectToDb (dbName : String) (srv : Server) : Server × List DbOp :=
  let step₁ :=
    if srv.dbs.contains dbName then (srv, ([] : List DbOp))
    else ({srv with dbs := srv.dbs ++ [dbName]}, [DbOp.dbCreate dbName])
  let srv₁ := step₁.1
  let step₂ :=
    if srv₁.tables.contains MIGRATION_TABLE_NAME then (srv₁, ([] : List DbOp))
    else ({srv₁ with
            tables := srv₁.tables ++ [MIGRATION_TABLE_NAME],
            indexes := srv₁.indexes ++ [(MIGRATION_TABLE_NAME, "timestamp")]},
          [DbOp.tableCreate MIGRATION_TABLE_NAME,
           DbOp.indexCreate MIGRATION_TABLE_NAME "timestamp",
           DbOp.indexWait MIGRATION_TABLE_NAME])
  (step₂.1,
    [DbOp.connectPool, DbOp.dbList] ++ step₁.2 ++ [DbOp.tableList] ++ step₂.2 ++
      [DbOp.waitReady dbName])

/-! ## Derived trace shapes, used to characterise the loops -/

/-- The ledger rows a fully successful forward batch inserts: one
`{id, name, timestamp}` row per planned migration, ids drawn from `genId`
starting at `k`. -/
def entriesOf (genId : Nat → String) : Nat → List MigrationInfo → List LedgerEntry
  | _, [] => []
  | k, m :: rest => ⟨genId k, m.name, m.timestamp⟩ :: entriesOf genId (k + 1) rest

/-- The console log of a fully successful forward batch. -/
def upLogsOf : List MigrationInfo → List LogEvent
  | [] => [.upSuccessful]
  | m :: rest => .upStart m.timestamp m.name :: upLogsOf rest

/-- The console log of a forward batch whose migrations `pre` succeed and
whose next migration `m` throws. -/
def upFailLogsOf (m : MigrationInfo) : List MigrationInfo → List LogEvent
  | [] => [.upStart m.timestamp m.name, .migrationFailed m.name]
  | x :: rest => .upStart x.timestamp x.name :: upFailLogsOf m rest

/-- The console log of a fully successful backward batch. -/
def downLogsOf : List LedgerEntry → List LogEvent
  | [] => [.downSuccessful]
  | e :: rest => .downStart e.timestamp e.name :: downLogsOf rest

/-- The console log of a backward batch whose entries `pre` succeed and whose
next entry `e` throws. -/
def downFailLogsOf (e : LedgerEntry) : List LedgerEntry → List LogEvent
  | [] => [.downStart e.timestamp e.name, .migrationFailed e.name]
  | x :: rest => .downStart x.timestamp x.name :: downFailLogsOf e rest

/-- The table left after deleting, in order, the rows of `plan` by primary
key. -/
def deletedFrom (table : List LedgerEntry) : List LedgerEntry → List LedgerEntry
  | [] => table
  | e :: rest => deletedFrom (deleteById table e.id) rest

/-! ## The executable comparison agrees with the lexicographic string order -/

theorem charListLtb_iff : ∀ as bs : List Char, charListLtb as bs = true ↔ as < bs
  | [], [] => iff_of_false (by simp [charListLtb]) (by intro h; cases h)
  | [], b :: bs => iff_of_true rfl List.Lex.nil
  | _ :: _, [] => iff_of_false (by simp [charListLtb]) (by intro h; cases h)
  | a :: as, b :: bs => by
    simp only [charListLtb]
    by_cases h₁ : a < b
    · rw [if_pos h₁]
      exact iff_of_true rfl (List.Lex.rel h₁)
    · rw [if_neg h₁]
      by_cases h₂ : b < a
      · rw [if_pos h₂]
        refine iff_of_false (by simp) ?_
        intro h
        cases h with
        | rel h' => exact h₁ h'
        | cons _ => exact lt_irrefl a h₂
      · rw [if_neg h₂, charListLtb_iff as bs]
        have hab : a = b := le_antisymm (not_lt.mp h₂) (not_lt.mp h₁)
        subst hab
        constructor
        · intro h
          exact List.Lex.cons h
        · intro h
          cases h with
          | rel h' => exact absurd h' h₁
          | cons h' => exact h'

theorem jsLtb_iff (a b : String) : jsLtb a b = true ↔ a < b := by
  rw [String.lt_iff_toList_lt]
  exact charListLtb_iff a.data b.data

theorem jsLtb_eq_false_iff (a b : String) : jsLtb a b = false ↔ b ≤ a := by
  rw [← not_lt, ← jsLtb_iff a b]
  cases h : jsLtb a b <;> simp

theorem tsLE_iff (a b : LedgerEntry) : tsLE a b ↔ a.timestamp ≤ b.timestamp :=
  jsLtb_eq_false_iff _ _

theorem tsLE_total : ∀ a b : LedgerEntry, tsLE a b ∨ tsLE b a := by
  intro a b
  rw [tsLE_iff, tsLE_iff]
  exact le_total _ _

theorem tsLE_trans : ∀ a b c : LedgerEntry, tsLE a b → tsLE b c → tsLE a c := by
  intro a b c hab hbc
  rw [tsLE_iff] at *
  exact le_trans hab hbc

/-! ## Facts about the sorted ledger read -/

theorem orderBy_perm (t : List LedgerEntry) : List.Perm (orderByTimestamp t) t :=
  List.perm_insertionSort tsLE t

theorem orderBy_sorted (t : List LedgerEntry) : (orderByTimestamp t).Sorted tsLE :=
  @List.sorted_insertionSort _ tsLE _ ⟨tsLE_total⟩ ⟨tsLE_trans⟩ t

theorem orderBy_eq_nil {t : List LedgerEntry} : orderByTimestamp t = [] ↔ t = [] := by
  constructor
  · intro h
    have hlen := (orderBy_perm t).length_eq
    rw [h] at hlen
    exact List.eq_nil_of_length_eq_zero hlen.symm
  · intro h
    subst h
    rfl

theorem sorted_le_getLast : ∀ (l : List LedgerEntry), l.Sorted tsLE → ∀ x ∈ l, ∀ (hne : l ≠ []),
    x.timestamp ≤ (l.getLast hne).timestamp
  | [], _, _, hx, hne => absurd rfl hne
  | [a], _, x, hx, _ => by
      have hxa : x = a := by simpa using hx
      subst hxa
      simp [List.getLast]
  | a :: b :: t, hs, x, hx, hne => by
      have hne' : b :: t ≠ [] := by simp
      have hLast : (a :: b :: t).getLast hne = (b :: t).getLast hne' := List.getLast_cons hne'
      rw [hLast]
      rcases List.mem_cons.mp hx with rfl | hx'
      · have hmem : (b :: t).getLast hne' ∈ b :: t := List.getLast_mem hne'
        have hrel := List.rel_of_sorted_cons hs _ hmem
        exact (tsLE_iff _ _).mp hrel
      · exact sorted_le_getLast (b :: t) hs.of_cons x hx' hne'

/-- When `orderBy` returns `e` as its last row, `e` is a row of the table and
its timestamp is greatest. -/
theorem latest_mem_and_max {t : List LedgerEntry} {e : LedgerEntry}
    (h : (orderByTimestamp t).getLast? = some e) :
    e ∈ t ∧ ∀ x ∈ t, x.timestamp ≤ e.timestamp := by
  have hne : orderByTimestamp t ≠ [] := by
    intro h0
    rw [h0] at h
    simp at h
  have hLast : (orderByTimestamp t).getLast hne = e := by
    rw [List.getLast?_eq_getLast _ hne] at h
    exact Option.some.inj h
  constructor
  · have hmem : e ∈ orderByTimestamp t := hLast ▸ List.getLast_mem hne
    exact (orderBy_perm t).mem_iff.mp hmem
  · intro x hx
    have hx' : x ∈ orderByTimestamp t := (orderBy_perm t).mem_iff.mpr hx
    have hle := sorted_le_getLast _ (orderBy_sorted t) x hx' hne
    rwa [hLast] at hle

/-! ## Characterisations of the forward loop -/

theorem entriesOf_map_timestamp (genId : Nat → String) :
    ∀ (k : Nat) (plan : List MigrationInfo),
      (entriesOf genId k plan).map (fun e => e.timestamp) = plan.map (fun m => m.timestamp)
  | _, [] => rfl
  | k, m :: rest => by
      simp [entriesOf, entriesOf_map_timestamp genId (k + 1) rest]

theorem entriesOf_eq_nil_iff (genId : Nat → String) (k : Nat) (plan : List MigrationInfo) :
    entriesOf genId k plan = [] ↔ plan = [] := by
  cases plan <;> simp [entriesOf]

theorem upLoop_success (upOk : MigrationInfo → Bool) (genId : Nat → String) :
    ∀ (plan : List MigrationInfo), (∀ m ∈ plan, upOk m = true) →
      ∀ (k : Nat) (table : List LedgerEntry),
      upLoop upOk genId k plan table =
        ⟨table ++ entriesOf genId k plan, plan, upLogsOf plan, true⟩ := by
  intro plan
  induction plan with
  | nil =>
      intro _ k table
      simp [upLoop, entriesOf, upLogsOf]
  | cons m rest ih =>
      intro h k table
      have hm : upOk m = true := h m (List.mem_cons_self m rest)
      have hrest : ∀ x ∈ rest, upOk x = true := fun x hx => h x (List.mem_cons_of_mem m hx)
      simp only [upLoop]
      rw [if_pos hm, ih hrest]
      simp [entriesOf, upLogsOf]

theorem upLoop_failure (upOk : MigrationInfo → Bool) (genId : Nat → String) :
    ∀ (pre : List MigrationInfo), (∀ x ∈ pre, upOk x = true) →
      ∀ (m : MigrationInfo), upOk m = false →
      ∀ (post : List MigrationInfo) (k : Nat) (table : List LedgerEntry),
      upLoop upOk genId k (pre ++ m :: post) table =
        ⟨table ++ entriesOf genId k pre, pre ++ [m], upFailLogsOf m pre, false⟩ := by
  intro pre
  induction pre with
  | nil =>
      intro _ m hm post k table
      simp only [List.nil_append, upLoop]
      rw [if_neg (by simp [hm])]
      simp [entriesOf, upFailLogsOf]
  | cons x rest ih =>
      intro hpre m hm post k table
      have hx : upOk x = true := hpre x (List.mem_cons_self x rest)
      simp only [List.cons_append, upLoop, List.append_eq]
      rw [if_pos hx, ih (fun y hy => hpre y (List.mem_cons_of_mem x hy)) m hm]
      simp [entriesOf, upFailLogsOf]

theorem upLoop_invoked_subset (upOk : MigrationInfo → Bool) (genId : Nat → String) :
    ∀ (plan : List MigrationInfo) (k : Nat) (table : List LedgerEntry),
      ∀ m ∈ (upLoop upOk genId k plan table).invoked, m ∈ plan := by
  intro plan
  induction plan with
  | nil =>
      intro k table m hm
      simp [upLoop] at hm
  | cons x rest ih =>
      intro k table m hm
      by_cases hx : upOk x = true
      · simp only [upLoop] at hm
        rw [if_pos hx] at hm
        rcases List.mem_cons.mp hm with rfl | h'
        · exact List.mem_cons_self _ _
        · exact List.mem_cons_of_mem _ (ih (k + 1) _ m h')
      · simp only [upLoop] at hm
        rw [if_neg hx] at hm
        rcases List.mem_cons.mp hm with rfl | h'
        · exact List.mem_cons_self _ _
        · simp at h'

theorem upLoop_table_closure (upOk : MigrationInfo → Bool) (genId : Nat → String) :
    ∀ (plan : List MigrationInfo) (k : Nat) (table : List LedgerEntry),
      ∀ e ∈ (upLoop upOk genId k plan table).table,
        e ∈ table ∨ e.timestamp ∈ plan.map (fun m => m.timestamp) := by
  intro plan
  induction plan with
  | nil =>
      intro k table e he
      exact Or.inl (by simpa [upLoop] using he)
  | cons x rest ih =>
      intro k table e he
      by_cases hx : upOk x = true
      · simp only [upLoop] at he
        rw [if_pos hx] at he
        rcases ih (k + 1) (table ++ [⟨genId k, x.name, x.timestamp⟩]) e he with h' | h'
        · rcases List.mem_append.mp h' with h'' | h''
          · exact Or.inl h''
          · refine Or.inr ?_
            have : e = ⟨genId k, x.name, x.timestamp⟩ := by simpa using h''
            subst this
            simp
        · exact Or.inr (by simp [h'])
      · simp only [upLoop] at he
        rw [if_neg hx] at he
        exact Or.inl he

/-! ## Characterisations of the backward loop -/

theorem downLoop_success (downOk : LedgerEntry → Bool) :
    ∀ (plan : List LedgerEntry), (∀ e ∈ plan, downOk e = true) →
      ∀ (table : List LedgerEntry),
      downLoop downOk plan table = ⟨deletedFrom table plan, plan, downLogsOf plan, true⟩ := by
  intro plan
  induction plan with
  | nil =>
      intro _ table
      simp [downLoop, deletedFrom, downLogsOf]
  | cons e rest ih =>
      intro h table
      have he : downOk e = true := h e (List.mem_cons_self e rest)
      simp only [downLoop]
      rw [if_pos he, ih (fun x hx => h x (List.mem_cons_of_mem e hx))]
      simp [deletedFrom, downLogsOf]

theorem downLoop_failure (downOk : LedgerEntry → Bool) :
    ∀ (pre : List LedgerEntry), (∀ x ∈ pre, downOk x = true) →
      ∀ (e : LedgerEntry), downOk e = false →
      ∀ (post : List LedgerEntry) (table : List LedgerEntry),
      downLoop downOk (pre ++ e :: post) table =
        ⟨deletedFrom table pre, pre ++ [e], downFailLogsOf e pre, false⟩ := by
  intro pre
  induction pre with
  | nil =>
      intro _ e he post table
      simp only [List.nil_append, downLoop]
      rw [if_neg (by simp [he])]
      simp [deletedFrom, downFailLogsOf]
  | cons x rest ih =>
      intro hpre e he post table
      have hx : downOk x = true := hpre x (List.mem_cons_self x rest)
      simp only [List.cons_append, downLoop, List.append_eq]
      rw [if_pos hx, ih (fun y hy => hpre y (List.mem_cons_of_mem x hy)) e he]
      simp [deletedFrom, downFailLogsOf]

theorem mem_deletedFrom :
    ∀ (plan table : List LedgerEntry) (x : LedgerEntry),
      x ∈ table → x.id ∉ plan.map (fun e => e.id) → x ∈ deletedFrom table plan
  | [], _, _, hx, _ => hx
  | e :: rest, table, x, hx, hid => by
      have hne : x.id ≠ e.id := fun h => hid (by simp [h])
      have hrest : x.id ∉ rest.map (fun e => e.id) := fun h => hid (by simp [h])
      refine mem_deletedFrom rest (deleteById table e.id) x ?_ hrest
      unfold deleteById
      refine List.mem_filter.mpr ⟨hx, ?_⟩
      simpa using hne

/-! ## Log shapes -/

theorem upLogsOf_ne_nil : ∀ plan, upLogsOf plan ≠ []
  | [] => by simp [upLogsOf]
  | _ :: _ => by simp [upLogsOf]

theorem upLogsOf_getLast : ∀ plan, (upLogsOf plan).getLast? = some LogEvent.upSuccessful
  | [] => rfl
  | _ :: rest => by
      have h := upLogsOf_getLast rest
      rw [upLogsOf]
      cases hr : upLogsOf rest with
      | nil => exact absurd hr (upLogsOf_ne_nil rest)
      | cons y ys =>
          rw [hr] at h
          rw [List.getLast?_cons_cons]
          exact h

theorem upFailLogsOf_ne_nil (m : MigrationInfo) : ∀ pre, upFailLogsOf m pre ≠ []
  | [] => by simp [upFailLogsOf]
  | _ :: _ => by simp [upFailLogsOf]

theorem upFailLogsOf_getLast (m : MigrationInfo) :
    ∀ pre, (upFailLogsOf m pre).getLast? = some (LogEvent.migrationFailed m.name)
  | [] => rfl
  | _ :: rest => by
      have h := upFailLogsOf_getLast m rest
      rw [upFailLogsOf]
      cases hr : upFailLogsOf m rest with
      | nil => exact absurd hr (upFailLogsOf_ne_nil m rest)
      | cons y ys =>
          rw [hr] at h
          rw [List.getLast?_cons_cons]
          exact h

theorem downFailLogsOf_ne_nil (e : LedgerEntry) : ∀ pre, downFailLogsOf e pre ≠ []
  | [] => by simp [downFailLogsOf]
  | _ :: _ => by simp [downFailLogsOf]

theorem downFailLogsOf_getLast (e : LedgerEntry) :
    ∀ pre, (downFailLogsOf e pre).getLast? = some (LogEvent.migrationFailed e.name)
  | [] => rfl
  | _ :: rest => by
      have h := downFailLogsOf_getLast e rest
      rw [downFailLogsOf]
      cases hr : downFailLogsOf e rest with
      | nil => exact absurd hr (downFailLogsOf_ne_nil e rest)
      | cons y ys =>
          rw [hr] at h
          rw [List.getLast?_cons_cons]
          exact h

/-! ## Dispatch equations for one invocation -/

theorem up_plan_nil {all : Bool} {upOk : MigrationInfo → Bool} {genId : Nat → String}
    {s : DbState}
    (h : getMigrationsExcept (orderByTimestamp s.table).getLast? s.files
        (if all then -1 else 1) = []) :
    up all upOk genId s = ⟨s, [], [LogEvent.noNewMigrations], false⟩ := by
  simp [up, h]

theorem up_plan_ne_nil {all : Bool} {upOk : MigrationInfo → Bool} {genId : Nat → String}
    {s : DbState}
    (h : getMigrationsExcept (orderByTimestamp s.table).getLast? s.files
        (if all then -1 else 1) ≠ []) :
    up all upOk genId s =
      ⟨⟨s.files,
          (upLoop upOk genId 0
            (getMigrationsExcept (orderByTimestamp s.table).getLast? s.files
              (if all then -1 else 1)) s.table).table⟩,
        (upLoop upOk genId 0
          (getMigrationsExcept (orderByTimestamp s.table).getLast? s.files
            (if all then -1 else 1)) s.table).invoked,
        (upLoop upOk genId 0
          (getMigrationsExcept (orderByTimestamp s.table).getLast? s.files
            (if all then -1 else 1)) s.table).log,
        false⟩ := by
  have hlen : ¬ ((getMigrationsExcept (orderByTimestamp s.table).getLast? s.files
      (if all then -1 else 1)).length < 1) := by
    have := List.length_pos.mpr h
    omega
  simp only [up]
  rw [if_neg hlen]

theorem upCompiled_plan_nil {all : Bool} {upOk : MigrationInfo → Bool} {genId : Nat → String}
    {s : DbState}
    (h : getMigrationsExcept (orderByTimestamp s.table).getLast? s.files
        (if all then -1 else 1) = []) :
    upCompiled all upOk genId s = ⟨s, [], [LogEvent.noNewMigrations], false⟩ := by
  simp [upCompiled, h]

theorem upCompiled_plan_ne_nil {all : Bool} {upOk : MigrationInfo → Bool} {genId : Nat → String}
    {s : DbState}
    (h : getMigrationsExcept (orderByTimestamp s.table).getLast? s.files
        (if all then -1 else 1) ≠ []) :
    upCompiled all upOk genId s =
      ⟨⟨s.files,
          (upLoop upOk genId 0
            (getMigrationsExcept (orderByTimestamp s.table).getLast? s.files
              (if all then -1 else 1)) s.table).table⟩,
        (upLoop upOk genId 0
          (getMigrationsExcept (orderByTimestamp s.table).getLast? s.files
            (if all then -1 else 1)) s.table).invoked,
        (upLoop upOk genId 0
          (getMigrationsExcept (orderByTimestamp s.table).getLast? s.files
            (if all then -1 else 1)) s.table).log,
        (upLoop upOk genId 0
          (getMigrationsExcept (orderByTimestamp s.table).getLast? s.files
            (if all then -1 else 1)) s.table).completed⟩ := by
  have hlen : ¬ ((getMigrationsExcept (orderByTimestamp s.table).getLast? s.files
      (if all then -1 else 1)).length < 1) := by
    have := List.length_pos.mpr h
    omega
  simp only [upCompiled]
  rw [if_neg hlen]

theorem down_table_nil {all : Bool} {downOk : LedgerEntry → Bool} {s : DbState}
    (h : s.table = []) :
    down all downOk s = ⟨s, [], [LogEvent.noNewMigrations], false⟩ := by
  have h0 : orderByTimestamp s.table = [] := orderBy_eq_nil.mpr h
  simp [down, h0]

theorem down_table_ne_nil {all : Bool} {downOk : LedgerEntry → Bool} {s : DbState}
    (h : s.table ≠ []) :
    down all downOk s =
      ⟨⟨s.files,
          (downLoop downOk (downPlan all (orderByTimestamp s.table)) s.table).table⟩,
        (downLoop downOk (downPlan all (orderByTimestamp s.table)) s.table).invoked,
        (downLoop downOk (downPlan all (orderByTimestamp s.table)) s.table).log,
        false⟩ := by
  have h0 : orderByTimestamp s.table ≠ [] := fun hh => h (orderBy_eq_nil.mp hh)
  have hlen : ¬ ((orderByTimestamp s.table).length = 0) := by
    have := List.length_pos.mpr h0
    omega
  simp only [down]
  rw [if_neg hlen]

theorem downCompiled_table_nil {all : Bool} {downOk : LedgerEntry → Bool} {s : DbState}
    (h : s.table = []) :
    downCompiled all downOk s = ⟨s, [], [LogEvent.noNewMigrations], false⟩ := by
  have h0 : orderByTimestamp s.table = [] := orderBy_eq_nil.mpr h
  simp [downCompiled, h0]

theorem downCompiled_table_ne_nil {all : Bool} {downOk : LedgerEntry → Bool} {s : DbState}
    (h : s.table ≠ []) :
    downCompiled all downOk s =
      ⟨⟨s.files,
          (downLoop downOk (downPlan all (orderByTimestamp s.table)) s.table).table⟩,
        (downLoop downOk (downPlan all (orderByTimestamp s.table)) s.table).invoked,
        (downLoop downOk (downPlan all (orderByTimestamp s.table)) s.table).log,
        (downLoop downOk (downPlan all (orderByTimestamp s.table)) s.table).completed⟩ := by
  have h0 : orderByTimestamp s.table ≠ [] := fun hh => h (orderBy_eq_nil.mp hh)
  have hlen : ¬ ((orderByTimestamp s.table).length = 0) := by
    have := List.length_pos.mpr h0
    omega
  simp only [downCompiled]
  rw [if_neg hlen]

/-! ## Planner facts -/

theorem getMigrationsExcept_sublist_pending (c : Option LedgerEntry) (files : List String)
    (n : Int) :
    (getMigrationsExcept c files n).Sublist (pendingMigrations c files) := by
  unfold getMigrationsExcept
  split
  · exact List.take_sublist _ _
  · exact List.Sublist.refl _

theorem getMigrationsExcept_subset_pending (c : Option LedgerEntry) (files : List String)
    (n : Int) :
    getMigrationsExcept c files n ⊆ pendingMigrations c files :=
  (getMigrationsExcept_sublist_pending c files n).subset

theorem pendingMigrations_sublist (c : Option LedgerEntry) (files : List String) :
    (pendingMigrations c files).Sublist (parseCandidates files) :=
  List.filter_sublist _

theorem mem_pendingMigrations_some {l : LedgerEntry} {files : List String} {m : MigrationInfo}
    (h : m ∈ pendingMigrations (some l) files) :
    m ∈ parseCandidates files ∧ l.timestamp < m.timestamp := by
  have h' := List.mem_filter.mp h
  refine ⟨h'.1, ?_⟩
  exact (jsLtb_iff _ _).mp h'.2

theorem pendingMigrations_none (files : List String) :
    pendingMigrations none files = parseCandidates files := by
  simp [pendingMigrations]

theorem mem_pendingMigrations_of (l : LedgerEntry) {files : List String} {m : MigrationInfo}
    (hmem : m ∈ parseCandidates files) (hlt : l.timestamp < m.timestamp) :
    m ∈ pendingMigrations (some l) files := by
  refine List.mem_filter.mpr ⟨hmem, ?_⟩
  exact (jsLtb_iff _ _).mpr hlt

/-- C1 (amended): forward planning keeps exactly the candidates whose
timestamp is strictly greater than the latest applied entry's — all parsed
candidates when the ledger is empty and no limit applies — but it performs no
sort: the result is returned in directory-scan order (a sublist of the parsed
scan). -/
theorem C1_forward_plan_filters_in_scan_order (l : LedgerEntry) (files : List String)
    (n : Int) :
    (∀ m ∈ getMigrationsExcept (some l) files n, l.timestamp < m.timestamp) ∧
    getMigrationsExcept none files (-1) = parseCandidates files ∧
    (∀ latest : Option LedgerEntry,
      (getMigrationsExcept latest files n).Sublist (parseCandidates files)) := by
  refine ⟨?_, ?_, ?_⟩
  · intro m hm
    exact (mem_pendingMigrations_some (getMigrationsExcept_subset_pending _ _ _ hm)).2
  · unfold getMigrationsExcept
    rw [if_neg (by simp)]
    exact pendingMigrations_none files
  · intro latest
    exact (getMigrationsExcept_sublist_pending latest files n).trans
      (pendingMigrations_sublist latest files)

/-- C1 witness: a concrete ledger and scan where the plan keeps only the
strictly newer candidate. -/
theorem C1_forward_plan_filters_in_scan_order_witness :
    (⟨"i0", "a", "20230101000000"⟩ : LedgerEntry).timestamp <
      (⟨"b", "20230102000000", "20230102000000-b.ts"⟩ : MigrationInfo).timestamp ∧
    getMigrationsExcept none ["20230102000000-b.ts"] (-1) =
      parseCandidates ["20230102000000-b.ts"] := by
  constructor
  · exact (C1_forward_plan_filters_in_scan_order ⟨"i0", "a", "20230101000000"⟩
      ["20230101000000-a.ts", "20230102000000-b.ts"] (-1)).1
      ⟨"b", "20230102000000", "20230102000000-b.ts"⟩ (by decide)
  · exact (C1_forward_plan_filters_in_scan_order ⟨"i0", "a", "20230101000000"⟩
      ["20230102000000-b.ts"] (-1)).2.1

/-- C1 counterexample: scanned in the order `[20230102…, 20230101…]` with an
empty ledger, forward planning returns the candidates unsorted, refuting the
claim that the result is sorted ascending regardless of scan order. -/
theorem C1_counterexample :
    getMigrationsExcept none ["20230102000000-b.ts", "20230101000000-a.ts"] (-1) =
      [⟨"b", "20230102000000", "20230102000000-b.ts"⟩,
       ⟨"a", "20230101000000", "20230101000000-a.ts"⟩] ∧
    ¬ List.Sorted (fun a b : MigrationInfo => a.timestamp ≤ b.timestamp)
        (getMigrationsExcept none ["20230102000000-b.ts", "20230101000000-a.ts"] (-1)) := by
  have heq : getMigrationsExcept none ["20230102000000-b.ts", "20230101000000-a.ts"] (-1) =
      [⟨"b", "20230102000000", "20230102000000-b.ts"⟩,
       ⟨"a", "20230101000000", "20230101000000-a.ts"⟩] := by decide
  refine ⟨heq, ?_⟩
  rw [heq]
  intro hs
  have h1 := List.rel_of_sorted_cons hs
    (⟨"a", "20230101000000", "20230101000000-a.ts"⟩ : MigrationInfo) (by simp)
  have hlt : ("20230101000000" : String) < "20230102000000" := (jsLtb_iff _ _).mp (by decide)
  exact absurd h1 (not_le.mpr hlt)

/-- C4 (amended): limit-one planning returns at most one identity, and when
anything is pending it is the first pending candidate in directory-scan order
(the smallest timestamp only when the scan order is ascending). -/
theorem C4_limit_one_takes_first_pending (latest : Option LedgerEntry) (files : List String) :
    (getMigrationsExcept latest files 1).length ≤ 1 ∧
    (∀ (m : MigrationInfo) (rest : List MigrationInfo),
      pendingMigrations latest files = m :: rest →
      getMigrationsExcept latest files 1 = [m]) := by
  constructor
  · unfold getMigrationsExcept
    rw [if_pos (by decide)]
    rw [List.length_take]
    exact min_le_left _ _
  · intro m rest h
    unfold getMigrationsExcept
    rw [if_pos (by decide), h]
    rfl

/-- C4 witness: a two-candidate scan planned with limit one. -/
theorem C4_limit_one_takes_first_pending_witness :
    (getMigrationsExcept none ["20230101000000-a.ts", "20230102000000-b.ts"] 1).length ≤ 1 ∧
    getMigrationsExcept none ["20230101000000-a.ts", "20230102000000-b.ts"] 1 =
      [⟨"a", "20230101000000", "20230101000000-a.ts"⟩] := by
  constructor
  · exact (C4_limit_one_takes_first_pending none
      ["20230101000000-a.ts", "20230102000000-b.ts"]).1
  · exact (C4_limit_one_takes_first_pending none
      ["20230101000000-a.ts", "20230102000000-b.ts"]).2
      ⟨"a", "20230101000000", "20230101000000-a.ts"⟩
      [⟨"b", "20230102000000", "20230102000000-b.ts"⟩] (by decide)

/-- C4 counterexample: both candidates pending, scan order descending: the
limit-one plan holds the later candidate, not the smallest pending timestamp. -/
theorem C4_counterexample :
    getMigrationsExcept none ["20230102000000-b.ts", "20230101000000-a.ts"] 1 =
      [⟨"b", "20230102000000", "20230102000000-b.ts"⟩] ∧
    (⟨"a", "20230101000000", "20230101000000-a.ts"⟩ : MigrationInfo) ∈
      pendingMigrations none ["20230102000000-b.ts", "20230101000000-a.ts"] ∧
    (⟨"a", "20230101000000", "20230101000000-a.ts"⟩ : MigrationInfo).timestamp <
      (⟨"b", "20230102000000", "20230102000000-b.ts"⟩ : MigrationInfo).timestamp := by
  refine ⟨by decide, by decide, ?_⟩
  exact (jsLtb_iff _ _).mp (by decide)

/-- C3: backward planning returns the ascending ledger reversed (hence sorted
descending by timestamp) with limit=all; with limit=one it returns exactly the
last row of the ascending read, a row of the table with the greatest
timestamp; an empty ledger yields the empty plan under either limit and `down`
reports `No new migrations` without error. -/
theorem C3_backward_plan (all : Bool) (downOk : LedgerEntry → Bool) (files : List String)
    (table : List LedgerEntry) :
    (downPlan true (orderByTimestamp table) = (orderByTimestamp table).reverse ∧
      List.Sorted (fun a b : LedgerEntry => b.timestamp ≤ a.timestamp)
        (downPlan true (orderByTimestamp table))) ∧
    (∀ e : LedgerEntry, (orderByTimestamp table).getLast? = some e →
      downPlan false (orderByTimestamp table) = [e] ∧ e ∈ table ∧
        ∀ x ∈ table, x.timestamp ≤ e.timestamp) ∧
    (table = [] → downPlan all (orderByTimestamp table) = [] ∧
      down all downOk ⟨files, table⟩ = ⟨⟨files, table⟩, [], [LogEvent.noNewMigrations], false⟩) := by
  refine ⟨⟨rfl, ?_⟩, ?_, ?_⟩
  · show List.Sorted _ ((orderByTimestamp table).reverse)
    rw [List.Sorted, List.pairwise_reverse]
    exact (orderBy_sorted table).imp (fun h => (tsLE_iff _ _).mp h)
  · intro e he
    have hmax := latest_mem_and_max he
    refine ⟨?_, hmax.1, hmax.2⟩
    simp [downPlan, he]
  · intro h
    subst h
    constructor
    · cases all <;> simp [downPlan, orderByTimestamp, List.insertionSort]
    · exact down_table_nil rfl

/-- C3 witness: a two-row ledger rolled all the way back and a one-row pick,
plus the empty-ledger early return. -/
theorem C3_backward_plan_witness :
    downPlan true (orderByTimestamp
        [⟨"i2", "b", "20230102000000"⟩, ⟨"i1", "a", "20230101000000"⟩]) =
      (orderByTimestamp
        [⟨"i2", "b", "20230102000000"⟩, ⟨"i1", "a", "20230101000000"⟩]).reverse ∧
    downPlan false (orderByTimestamp
        [⟨"i2", "b", "20230102000000"⟩, ⟨"i1", "a", "20230101000000"⟩]) =
      [⟨"i2", "b", "20230102000000"⟩] ∧
    down true (fun _ => true) ⟨["x"], ([] : List LedgerEntry)⟩ =
      ⟨⟨["x"], []⟩, [], [LogEvent.noNewMigrations], false⟩ := by
  refine ⟨(C3_backward_plan true (fun _ => true) ["x"]
      [⟨"i2", "b", "20230102000000"⟩, ⟨"i1", "a", "20230101000000"⟩]).1.1, ?_, ?_⟩
  · exact ((C3_backward_plan true (fun _ => true) ["x"]
      [⟨"i2", "b", "20230102000000"⟩, ⟨"i1", "a", "20230101000000"⟩]).2.1
      ⟨"i2", "b", "20230102000000"⟩ (by decide)).1
  · exact ((C3_backward_plan true (fun _ => true) ["x"] []).2.2 rfl).2

/-- C7: a candidate whose timestamp does not exceed the latest applied entry's
is never run and never recorded by `up` — even if no ledger row carries that
candidate's timestamp — because pending selection compares each candidate only
against the single latest entry. -/
theorem C7_stale_candidate_never_runs (all : Bool) (upOk : MigrationInfo → Bool)
    (genId : Nat → String) (files : List String) (table : List LedgerEntry)
    (l : LedgerEntry) (c : MigrationInfo)
    (hl : (orderByTimestamp table).getLast? = some l)
    (_hc : c ∈ parseCandidates files)
    (hle : c.timestamp ≤ l.timestamp) :
    c ∉ (up all upOk genId ⟨files, table⟩).invoked ∧
    ∀ e ∈ (up all upOk genId ⟨files, table⟩).state.table,
      e ∈ table ∨ l.timestamp < e.timestamp := by
  by_cases hplan : getMigrationsExcept (orderByTimestamp table).getLast? files
      (if all then -1 else 1) = []
  · rw [up_plan_nil hplan]
    exact ⟨by simp, fun e he => Or.inl he⟩
  · rw [up_plan_ne_nil hplan]
    constructor
    · intro hmem
      have hc' : c ∈ getMigrationsExcept (orderByTimestamp table).getLast? files
          (if all then -1 else 1) := upLoop_invoked_subset upOk genId _ 0 table c hmem
      have hcp : c ∈ pendingMigrations (some l) files := by
        rw [← hl]
        exact getMigrationsExcept_subset_pending _ _ _ hc'
      exact absurd (mem_pendingMigrations_some hcp).2 (not_lt.mpr hle)
    · intro e he
      rcases upLoop_table_closure upOk genId _ 0 table e he with h' | h'
      · exact Or.inl h'
      · rcases List.mem_map.mp h' with ⟨m, hm, hts⟩
        have hmp : m ∈ pendingMigrations (some l) files := by
          rw [← hl]
          exact getMigrationsExcept_subset_pending _ _ _ hm
        exact Or.inr (hts ▸ (mem_pendingMigrations_some hmp).2)

/-- C7 witness: a stale candidate (timestamp below the only applied entry) is
not invoked by `up --all`. -/
theorem C7_stale_candidate_never_runs_witness :
    (⟨"old", "20230101000000", "20230101000000-old.ts"⟩ : MigrationInfo) ∉
      (up true (fun _ => true) (fun _ => "g0")
        ⟨["20230101000000-old.ts"], [⟨"i1", "x", "20230102000000"⟩]⟩).invoked := by
  exact (C7_stale_candidate_never_runs true (fun _ => true) (fun _ => "g0")
    ["20230101000000-old.ts"] [⟨"i1", "x", "20230102000000"⟩]
    ⟨"i1", "x", "20230102000000"⟩ ⟨"old", "20230101000000", "20230101000000-old.ts"⟩
    (by decide) (by decide) ((jsLtb_eq_false_iff _ _).mp (by decide))).1

/-! ## Rollback-plan facts -/

theorem downPlan_subset (a : Bool) (l : List LedgerEntry) : ∀ x ∈ downPlan a l, x ∈ l := by
  intro x hx
  unfold downPlan at hx
  split at hx
  · exact List.mem_reverse.mp hx
  · split at hx
    next last hlast =>
      have hx' : x = last := by simpa using hx
      subst hx'
      exact List.mem_of_getLast?_eq_some hlast
    next => simp at hx

theorem downPlan_ids_nodup (a : Bool) {t : List LedgerEntry}
    (h : (t.map (fun r => r.id)).Nodup) :
    ((downPlan a (orderByTimestamp t)).map (fun r => r.id)).Nodup := by
  have hperm : List.Perm ((orderByTimestamp t).map (fun r => r.id))
      (t.map (fun r => r.id)) := (orderBy_perm t).map _
  have hob : ((orderByTimestamp t).map (fun r => r.id)).Nodup := hperm.nodup_iff.mpr h
  unfold downPlan
  split
  · rw [List.map_reverse]
    exact List.nodup_reverse.mpr hob
  · split
    · simp
    · simp

/-- C2: a thrown migration procedure halts the whole batch in both directions.
Forward: the procedures invoked are exactly the successful prefix followed by
the failing one; the ledger gains rows for the prefix only (none for the
failed migration or any later one); the failure is logged by name; the run
returns. Backward: symmetric, and the failing entry's ledger row survives. -/
theorem C2_fail_fast_halts (all : Bool) (upOk : MigrationInfo → Bool)
    (downOk : LedgerEntry → Bool) (genId : Nat → String)
    (files : List String) (table : List LedgerEntry)
    (pre : List MigrationInfo) (m : MigrationInfo) (post : List MigrationInfo)
    (hplan : getMigrationsExcept (orderByTimestamp table).getLast? files
        (if all then -1 else 1) = pre ++ m :: post)
    (hpre : ∀ x ∈ pre, upOk x = true) (hm : upOk m = false)
    (dpre : List LedgerEntry) (e : LedgerEntry) (dpost : List LedgerEntry)
    (hdplan : downPlan all (orderByTimestamp table) = dpre ++ e :: dpost)
    (hdpre : ∀ x ∈ dpre, downOk x = true) (he : downOk e = false)
    (hid : (table.map (fun r => r.id)).Nodup) :
    ((up all upOk genId ⟨files, table⟩).invoked = pre ++ [m] ∧
      (up all upOk genId ⟨files, table⟩).state.table = table ++ entriesOf genId 0 pre ∧
      (up all upOk genId ⟨files, table⟩).log.getLast? =
        some (LogEvent.migrationFailed m.name)) ∧
    ((down all downOk ⟨files, table⟩).invoked = dpre ++ [e] ∧
      (down all downOk ⟨files, table⟩).state.table = deletedFrom table dpre ∧
      e ∈ (down all downOk ⟨files, table⟩).state.table ∧
      (down all downOk ⟨files, table⟩).log.getLast? =
        some (LogEvent.migrationFailed e.name)) := by
  have hplanne : getMigrationsExcept (orderByTimestamp table).getLast? files
      (if all then -1 else 1) ≠ [] := by
    rw [hplan]
    simp
  have htn : table ≠ [] := by
    intro h0
    have hob : orderByTimestamp table = [] := orderBy_eq_nil.mpr h0
    rw [hob] at hdplan
    have hdp : downPlan all [] = [] := by cases all <;> simp [downPlan]
    rw [hdp] at hdplan
    exact absurd hdplan.symm (by simp)
  constructor
  · rw [up_plan_ne_nil hplanne, hplan, upLoop_failure upOk genId pre hpre m hm post 0 table]
    exact ⟨rfl, rfl, upFailLogsOf_getLast m pre⟩
  · rw [down_table_ne_nil htn, hdplan, downLoop_failure downOk dpre hdpre e he dpost table]
    refine ⟨rfl, rfl, ?_, downFailLogsOf_getLast e dpre⟩
    have hmemPlan : e ∈ downPlan all (orderByTimestamp table) := by
      rw [hdplan]
      exact List.mem_append.mpr (Or.inr (List.mem_cons_self e dpost))
    have hmemOb : e ∈ orderByTimestamp table :=
      downPlan_subset all (orderByTimestamp table) e hmemPlan
    have hmem : e ∈ table := (orderBy_perm table).mem_iff.mp hmemOb
    have hnid : e.id ∉ dpre.map (fun r => r.id) := by
      have hnd := downPlan_ids_nodup all hid
      rw [hdplan, List.map_append, List.map_cons] at hnd
      have hdisj := List.nodup_append.mp hnd
      intro hin
      exact absurd (List.mem_cons_self _ _) (hdisj.2.2 hin)
    exact mem_deletedFrom dpre table e hmem hnid

/-- C2 witness: a forward batch whose second migration throws and a backward
batch whose second rollback throws, on a two-row ledger. -/
theorem C2_fail_fast_halts_witness :
    ((up true (fun mi => mi.name == "ok") (fun k => "g" ++ toString k)
        ⟨["20230103000000-ok.ts", "20230104000000-bad.ts"],
          [⟨"i1", "a", "20230101000000"⟩, ⟨"i2", "b", "20230102000000"⟩]⟩).invoked =
      [⟨"ok", "20230103000000", "20230103000000-ok.ts"⟩] ++
        [⟨"bad", "20230104000000", "20230104000000-bad.ts"⟩] ∧
      (up true (fun mi => mi.name == "ok") (fun k => "g" ++ toString k)
        ⟨["20230103000000-ok.ts", "20230104000000-bad.ts"],
          [⟨"i1", "a", "20230101000000"⟩, ⟨"i2", "b", "20230102000000"⟩]⟩).state.table =
      [⟨"i1", "a", "20230101000000"⟩, ⟨"i2", "b", "20230102000000"⟩] ++
        entriesOf (fun k => "g" ++ toString k) 0
          [⟨"ok", "20230103000000", "20230103000000-ok.ts"⟩] ∧
      (up true (fun mi => mi.name == "ok") (fun k => "g" ++ toString k)
        ⟨["20230103000000-ok.ts", "20230104000000-bad.ts"],
          [⟨"i1", "a", "20230101000000"⟩, ⟨"i2", "b", "20230102000000"⟩]⟩).log.getLast? =
      some (LogEvent.migrationFailed "bad")) ∧
    ((down true (fun r => r.id == "i2") ⟨["20230103000000-ok.ts", "20230104000000-bad.ts"],
        [⟨"i1", "a", "20230101000000"⟩, ⟨"i2", "b", "20230102000000"⟩]⟩).invoked =
      [⟨"i2", "b", "20230102000000"⟩] ++ [⟨"i1", "a", "20230101000000"⟩] ∧
      (down true (fun r => r.id == "i2") ⟨["20230103000000-ok.ts", "20230104000000-bad.ts"],
        [⟨"i1", "a", "20230101000000"⟩, ⟨"i2", "b", "20230102000000"⟩]⟩).state.table =
      deletedFrom [⟨"i1", "a", "20230101000000"⟩, ⟨"i2", "b", "20230102000000"⟩]
        [⟨"i2", "b", "20230102000000"⟩] ∧
      (⟨"i1", "a", "20230101000000"⟩ : LedgerEntry) ∈
        (down true (fun r => r.id == "i2") ⟨["20230103000000-ok.ts", "20230104000000-bad.ts"],
          [⟨"i1", "a", "20230101000000"⟩, ⟨"i2", "b", "20230102000000"⟩]⟩).state.table ∧
      (down true (fun r => r.id == "i2") ⟨["20230103000000-ok.ts", "20230104000000-bad.ts"],
        [⟨"i1", "a", "20230101000000"⟩, ⟨"i2", "b", "20230102000000"⟩]⟩).log.getLast? =
      some (LogEvent.migrationFailed "a")) :=
  C2_fail_fast_halts true (fun mi => mi.name == "ok") (fun r => r.id == "i2")
    (fun k => "g" ++ toString k)
    ["20230103000000-ok.ts", "20230104000000-bad.ts"]
    [⟨"i1", "a", "20230101000000"⟩, ⟨"i2", "b", "20230102000000"⟩]
    [⟨"ok", "20230103000000", "20230103000000-ok.ts"⟩]
    ⟨"bad", "20230104000000", "20230104000000-bad.ts"⟩ []
    (by decide) (by decide) (by decide)
    [⟨"i2", "b", "20230102000000"⟩] ⟨"i1", "a", "20230101000000"⟩ []
    (by decide) (by decide) (by decide) (by decide)

theorem getMigrationsExcept_all (c : Option LedgerEntry) (files : List String) :
    getMigrationsExcept c files (-1) = pendingMigrations c files := by
  unfold getMigrationsExcept
  rw [if_neg (by simp)]

/-- C5: `up --all` is idempotent. After one run in which every planned
migration succeeds, a second run over the same directory invokes no
procedures, leaves the state (ledger and files) unchanged, and logs only
`No new migrations`. -/
theorem C5_up_all_idempotent (upOk : MigrationInfo → Bool) (genId : Nat → String)
    (files : List String) (table : List LedgerEntry)
    (h : ∀ m ∈ getMigrationsExcept (orderByTimestamp table).getLast? files (-1),
      upOk m = true) :
    (up true upOk genId (up true upOk genId ⟨files, table⟩).state).invoked = [] ∧
    (up true upOk genId (up true upOk genId ⟨files, table⟩).state).state =
      (up true upOk genId ⟨files, table⟩).state ∧
    (up true upOk genId (up true upOk genId ⟨files, table⟩).state).log =
      [LogEvent.noNewMigrations] := by
  have hif : (if (true : Bool) then (-1 : Int) else 1) = -1 := rfl
  by_cases hp : getMigrationsExcept (orderByTimestamp table).getLast? files (-1) = []
  · have hr₁ : up true upOk genId ⟨files, table⟩ =
        ⟨⟨files, table⟩, [], [LogEvent.noNewMigrations], false⟩ := by
      apply up_plan_nil
      rw [hif]
      exact hp
    rw [hr₁]
    have hr₂ : up true upOk genId (⟨files, table⟩ : DbState) =
        ⟨⟨files, table⟩, [], [LogEvent.noNewMigrations], false⟩ := hr₁
    rw [hr₂]
    exact ⟨rfl, rfl, rfl⟩
  · have hr₁ : up true upOk genId ⟨files, table⟩ =
        ⟨⟨files, (upLoop upOk genId 0
            (getMigrationsExcept (orderByTimestamp table).getLast? files
              (if true then -1 else 1)) table).table⟩,
          (upLoop upOk genId 0
            (getMigrationsExcept (orderByTimestamp table).getLast? files
              (if true then -1 else 1)) table).invoked,
          (upLoop upOk genId 0
            (getMigrationsExcept (orderByTimestamp table).getLast? files
              (if true then -1 else 1)) table).log,
          false⟩ := by
      apply up_plan_ne_nil
      rw [hif]
      exact hp
    have hloop := upLoop_success upOk genId
      (getMigrationsExcept (orderByTimestamp table).getLast? files (-1)) h 0 table
    rw [hr₁]
    rw [hif] at hr₁ ⊢
    rw [hloop]
    -- the state after the first run
    have hT₂ne : table ++ entriesOf genId 0
        (getMigrationsExcept (orderByTimestamp table).getLast? files (-1)) ≠ [] := by
      intro h0
      have := (List.append_eq_nil.mp h0).2
      exact hp ((entriesOf_eq_nil_iff genId 0 _).mp this)
    have hobne : orderByTimestamp (table ++ entriesOf genId 0
        (getMigrationsExcept (orderByTimestamp table).getLast? files (-1))) ≠ [] :=
      fun h0 => hT₂ne (orderBy_eq_nil.mp h0)
    obtain ⟨l₂, hl₂⟩ : ∃ l₂, (orderByTimestamp (table ++ entriesOf genId 0
        (getMigrationsExcept (orderByTimestamp table).getLast? files (-1)))).getLast?
          = some l₂ := by
      rw [List.getLast?_eq_getLast _ hobne]
      exact ⟨_, rfl⟩
    have hmax₂ := latest_mem_and_max hl₂
    -- every candidate timestamp is bounded by the new latest
    have hbound : ∀ c ∈ parseCandidates files, c.timestamp ≤ l₂.timestamp := by
      intro c hcmem
      have hofplan : c ∈ getMigrationsExcept (orderByTimestamp table).getLast? files (-1) →
          c.timestamp ≤ l₂.timestamp := by
        intro hcp
        have hts : c.timestamp ∈ (entriesOf genId 0
            (getMigrationsExcept (orderByTimestamp table).getLast? files (-1))).map
              (fun en => en.timestamp) := by
          rw [entriesOf_map_timestamp]
          exact List.mem_map.mpr ⟨c, hcp, rfl⟩
        rcases List.mem_map.mp hts with ⟨en, henmem, hents⟩
        have : en.timestamp ≤ l₂.timestamp :=
          hmax₂.2 en (List.mem_append.mpr (Or.inr henmem))
        rw [hents] at this
        exact this
      cases hl₁ : (orderByTimestamp table).getLast? with
      | none =>
          apply hofplan
          rw [hl₁, getMigrationsExcept_all, pendingMigrations_none]
          exact hcmem
      | some l₁ =>
          have hl₁mem := latest_mem_and_max hl₁
          have hl₁le : l₁.timestamp ≤ l₂.timestamp :=
            hmax₂.2 l₁ (List.mem_append.mpr (Or.inl hl₁mem.1))
          by_cases hclt : l₁.timestamp < c.timestamp
          · apply hofplan
            rw [hl₁, getMigrationsExcept_all]
            exact mem_pendingMigrations_of l₁ hcmem hclt
          · exact le_trans (not_lt.mp hclt) hl₁le
    -- the second run plans nothing
    have hplan₂ : getMigrationsExcept (orderByTimestamp (table ++ entriesOf genId 0
        (getMigrationsExcept (orderByTimestamp table).getLast? files (-1)))).getLast?
          files (-1) = [] := by
      rw [hl₂, getMigrationsExcept_all]
      unfold pendingMigrations
      rw [List.filter_eq_nil_iff]
      intro c hcmem
      have := hbound c hcmem
      have hfalse : jsLtb l₂.timestamp c.timestamp = false :=
        (jsLtb_eq_false_iff _ _).mpr this
      simp [hfalse]
    have hr₂ := @up_plan_nil true upOk genId
      ⟨files, table ++ entriesOf genId 0
        (getMigrationsExcept (orderByTimestamp table).getLast? files (-1))⟩
      (by rw [hif]; exact hplan₂)
    rw [hr₂]
    exact ⟨rfl, rfl, rfl⟩

/-- C5 witness: one candidate over an empty ledger, applied once, then
replanned: the second run is a no-op. -/
theorem C5_up_all_idempotent_witness :
    (up true (fun _ => true) (fun _ => "g0")
      (up true (fun _ => true) (fun _ => "g0")
        ⟨["20230101000000-init.ts"], []⟩).state).invoked = [] ∧
    (up true (fun _ => true) (fun _ => "g0")
      (up true (fun _ => true) (fun _ => "g0")
        ⟨["20230101000000-init.ts"], []⟩).state).state =
      (up true (fun _ => true) (fun _ => "g0") ⟨["20230101000000-init.ts"], []⟩).state ∧
    (up true (fun _ => true) (fun _ => "g0")
      (up true (fun _ => true) (fun _ => "g0")
        ⟨["20230101000000-init.ts"], []⟩).state).log = [LogEvent.noNewMigrations] :=
  C5_up_all_idempotent (fun _ => true) (fun _ => "g0") ["20230101000000-init.ts"] []
    (by decide)

/-- A row strictly newer than every row of `t` is the last row of the sorted
read of `t ++ [en]`. -/
theorem orderBy_getLast_strictmax {t : List LedgerEntry} {en : LedgerEntry}
    (h : ∀ x ∈ t, x.timestamp < en.timestamp) :
    (orderByTimestamp (t ++ [en])).getLast? = some en := by
  have hne : t ++ [en] ≠ [] := by simp
  have hobne : orderByTimestamp (t ++ [en]) ≠ [] := fun h0 => hne (orderBy_eq_nil.mp h0)
  rw [List.getLast?_eq_getLast _ hobne]
  have hLmem : (orderByTimestamp (t ++ [en])).getLast hobne ∈ t ++ [en] :=
    (orderBy_perm _).mem_iff.mp (List.getLast_mem hobne)
  have henmem : en ∈ orderByTimestamp (t ++ [en]) :=
    (orderBy_perm _).mem_iff.mpr (by simp)
  have hle : en.timestamp ≤ ((orderByTimestamp (t ++ [en])).getLast hobne).timestamp :=
    sorted_le_getLast _ (orderBy_sorted _) en henmem hobne
  have hEq : (orderByTimestamp (t ++ [en])).getLast hobne = en := by
    rcases List.mem_append.mp hLmem with hx | hx
    · exact absurd hle (not_le.mpr (h _ hx))
    · simpa using hx
  rw [hEq]

/-- C6: round trip. Applying the one pending migration forward (`up` without
`all`, which inserts its `{name, timestamp}` row) and then rolling it back
(`down` without `all`, which deletes that row by id) restores exactly the
original ledger rows, and neither run touches the migrations directory (the
`files` component is returned unchanged by both). -/
theorem C6_round_trip (upOk : MigrationInfo → Bool) (downOk : LedgerEntry → Bool)
    (genId : Nat → String) (files : List String) (table : List LedgerEntry)
    (m : MigrationInfo) (rest : List MigrationInfo)
    (hplan : pendingMigrations (orderByTimestamp table).getLast? files = m :: rest)
    (hok : upOk m = true)
    (hfresh : genId 0 ∉ table.map (fun r => r.id))
    (hdok : downOk ⟨genId 0, m.name, m.timestamp⟩ = true) :
    (up false upOk genId ⟨files, table⟩).state =
      ⟨files, table ++ [⟨genId 0, m.name, m.timestamp⟩]⟩ ∧
    down false downOk (up false upOk genId ⟨files, table⟩).state =
      ⟨⟨files, table⟩, [⟨genId 0, m.name, m.timestamp⟩],
        [LogEvent.downStart m.timestamp m.name, LogEvent.downSuccessful], false⟩ := by
  have hif : (if (false : Bool) then (-1 : Int) else 1) = 1 := rfl
  have hplan1 : getMigrationsExcept (orderByTimestamp table).getLast? files 1 = [m] := by
    unfold getMigrationsExcept
    rw [if_pos (by decide), hplan]
    rfl
  have hr₁ : up false upOk genId ⟨files, table⟩ =
      ⟨⟨files, (upLoop upOk genId 0
          (getMigrationsExcept (orderByTimestamp table).getLast? files
            (if false then -1 else 1)) table).table⟩,
        (upLoop upOk genId 0
          (getMigrationsExcept (orderByTimestamp table).getLast? files
            (if false then -1 else 1)) table).invoked,
        (upLoop upOk genId 0
          (getMigrationsExcept (orderByTimestamp table).getLast? files
            (if false then -1 else 1)) table).log,
        false⟩ := by
    apply up_plan_ne_nil
    rw [hif, hplan1]
    simp
  have hloop := upLoop_success upOk genId [m] (by simpa using hok) 0 table
  rw [hif, hplan1, hloop] at hr₁
  have hentry : entriesOf genId 0 [m] = [⟨genId 0, m.name, m.timestamp⟩] := rfl
  rw [hentry] at hr₁
  have hstate₁ : (up false upOk genId ⟨files, table⟩).state =
      ⟨files, table ++ [⟨genId 0, m.name, m.timestamp⟩]⟩ := by
    rw [hr₁]
  refine ⟨hstate₁, ?_⟩
  rw [hstate₁]
  -- the freshly inserted row is strictly newer than every original row
  have hstrict : ∀ x ∈ table, x.timestamp <
      (⟨genId 0, m.name, m.timestamp⟩ : LedgerEntry).timestamp := by
    intro x hx
    have hmm : m ∈ pendingMigrations (orderByTimestamp table).getLast? files := by
      rw [hplan]
      exact List.mem_cons_self m rest
    have htne : table ≠ [] := fun h0 => by simp [h0] at hx
    have hobne : orderByTimestamp table ≠ [] := fun h0 => htne (orderBy_eq_nil.mp h0)
    obtain ⟨l₁, hl₁⟩ : ∃ l₁, (orderByTimestamp table).getLast? = some l₁ := by
      rw [List.getLast?_eq_getLast _ hobne]
      exact ⟨_, rfl⟩
    rw [hl₁] at hmm
    have hlt := (mem_pendingMigrations_some hmm).2
    have hxle := (latest_mem_and_max hl₁).2 x hx
    exact lt_of_le_of_lt hxle hlt
  have hlast := orderBy_getLast_strictmax hstrict
  have hT₂ne : table ++ [(⟨genId 0, m.name, m.timestamp⟩ : LedgerEntry)] ≠ [] := by simp
  have hdown : down false downOk
      (⟨files, table ++ [⟨genId 0, m.name, m.timestamp⟩]⟩ : DbState) =
      ⟨⟨files, (downLoop downOk
          (downPlan false (orderByTimestamp
            (table ++ [⟨genId 0, m.name, m.timestamp⟩])))
          (table ++ [⟨genId 0, m.name, m.timestamp⟩])).table⟩,
        (downLoop downOk
          (downPlan false (orderByTimestamp
            (table ++ [⟨genId 0, m.name, m.timestamp⟩])))
          (table ++ [⟨genId 0, m.name, m.timestamp⟩])).invoked,
        (downLoop downOk
          (downPlan false (orderByTimestamp
            (table ++ [⟨genId 0, m.name, m.timestamp⟩])))
          (table ++ [⟨genId 0, m.name, m.timestamp⟩])).log,
        false⟩ := down_table_ne_nil hT₂ne
  have hdp : downPlan false (orderByTimestamp
      (table ++ [⟨genId 0, m.name, m.timestamp⟩])) =
      [⟨genId 0, m.name, m.timestamp⟩] := by
    unfold downPlan
    rw [if_neg (by simp), hlast]
  have hdloop := downLoop_success downOk [⟨genId 0, m.name, m.timestamp⟩]
    (by simpa using hdok) (table ++ [⟨genId 0, m.name, m.timestamp⟩])
  have hdel : deletedFrom (table ++ [(⟨genId 0, m.name, m.timestamp⟩ : LedgerEntry)])
      [⟨genId 0, m.name, m.timestamp⟩] = table := by
    show deleteById (table ++ [⟨genId 0, m.name, m.timestamp⟩]) (genId 0) = table
    unfold deleteById
    rw [List.filter_append]
    have h1 : table.filter (fun row => row.id != genId 0) = table := by
      rw [List.filter_eq_self]
      intro r hr
      have hne : r.id ≠ genId 0 := fun hEq =>
        hfresh (hEq ▸ List.mem_map.mpr ⟨r, hr, rfl⟩)
      simpa using hne
    have h2 : ([(⟨genId 0, m.name, m.timestamp⟩ : LedgerEntry)]).filter
        (fun row => row.id != genId 0) = [] := by simp
    rw [h1, h2, List.append_nil]
  rw [hdown, hdp, hdloop, hdel]
  simp [downLogsOf]

/-- C6 witness: one-row ledger, one strictly newer candidate, applied then
rolled back. -/
theorem C6_round_trip_witness :
    (up false (fun _ => true) (fun _ => "g0")
      ⟨["20230102000000-b.ts"], [⟨"i1", "a", "20230101000000"⟩]⟩).state =
      ⟨["20230102000000-b.ts"],
        [⟨"i1", "a", "20230101000000"⟩] ++ [⟨"g0", "b", "20230102000000"⟩]⟩ ∧
    down false (fun _ => true)
      (up false (fun _ => true) (fun _ => "g0")
        ⟨["20230102000000-b.ts"], [⟨"i1", "a", "20230101000000"⟩]⟩).state =
      ⟨⟨["20230102000000-b.ts"], [⟨"i1", "a", "20230101000000"⟩]⟩,
        [⟨"g0", "b", "20230102000000"⟩],
        [LogEvent.downStart "20230102000000" "b", LogEvent.downSuccessful], false⟩ :=
  C6_round_trip (fun _ => true) (fun _ => true) (fun _ => "g0")
    ["20230102000000-b.ts"] [⟨"i1", "a", "20230101000000"⟩]
    ⟨"b", "20230102000000", "20230102000000-b.ts"⟩ []
    (by decide) (by decide) (by decide) (by decide)

/-- C9: ledger bootstrap is create-if-absent. When the database, the
`_migrations` table and its `timestamp` index all exist, `connectToDb` issues
no create operation and leaves the server unchanged; when database and table
are absent it creates the database, the table and the index; and on every
path the last operation — before any ledger read or write can proceed — is
the wait for write-readiness. -/
theorem C9_bootstrap_idempotent (dbName : String) (srv : Server) :
    (srv.dbs.contains dbName = true → srv.tables.contains MIGRATION_TABLE_NAME = true →
      srv.indexes.contains (MIGRATION_TABLE_NAME, "timestamp") = true →
      connectToDb dbName srv =
        (srv, [DbOp.connectPool, DbOp.dbList, DbOp.tableList, DbOp.waitReady dbName])) ∧
    (srv.dbs.contains dbName = false → srv.tables.contains MIGRATION_TABLE_NAME = false →
      connectToDb dbName srv =
        (⟨srv.dbs ++ [dbName], srv.tables ++ [MIGRATION_TABLE_NAME],
            srv.indexes ++ [(MIGRATION_TABLE_NAME, "timestamp")]⟩,
          [DbOp.connectPool, DbOp.dbList, DbOp.dbCreate dbName, DbOp.tableList,
            DbOp.tableCreate MIGRATION_TABLE_NAME,
            DbOp.indexCreate MIGRATION_TABLE_NAME "timestamp",
            DbOp.indexWait MIGRATION_TABLE_NAME, DbOp.waitReady dbName])) ∧
    (connectToDb dbName srv).2.getLast? = some (DbOp.waitReady dbName) := by
  refine ⟨?_, ?_, ?_⟩
  · intro h1 h2 _
    have h1' : dbName ∈ srv.dbs := by simpa using h1
    have h2' : MIGRATION_TABLE_NAME ∈ srv.tables := by simpa using h2
    simp [connectToDb, h1', h2']
  · intro h1 h2
    have h1' : dbName ∉ srv.dbs := by simpa using h1
    have h2' : MIGRATION_TABLE_NAME ∉ srv.tables := by simpa using h2
    simp [connectToDb, h1', h2']
  · by_cases h1 : dbName ∈ srv.dbs <;>
      by_cases h2 : MIGRATION_TABLE_NAME ∈ srv.tables <;>
      simp [connectToDb, h1, h2]

/-- C9 witness: a server already owning all three objects is untouched, and a
bare server gets all three created; the wait is last in both cases. -/
theorem C9_bootstrap_idempotent_witness :
    connectToDb "mydb" ⟨["mydb"], ["_migrations"], [("_migrations", "timestamp")]⟩ =
      (⟨["mydb"], ["_migrations"], [("_migrations", "timestamp")]⟩,
        [DbOp.connectPool, DbOp.dbList, DbOp.tableList, DbOp.waitReady "mydb"]) ∧
    connectToDb "mydb" ⟨[], [], []⟩ =
      (⟨[] ++ ["mydb"], [] ++ [MIGRATION_TABLE_NAME],
          [] ++ [(MIGRATION_TABLE_NAME, "timestamp")]⟩,
        [DbOp.connectPool, DbOp.dbList, DbOp.dbCreate "mydb", DbOp.tableList,
          DbOp.tableCreate MIGRATION_TABLE_NAME,
          DbOp.indexCreate MIGRATION_TABLE_NAME "timestamp",
          DbOp.indexWait MIGRATION_TABLE_NAME, DbOp.waitReady "mydb"]) ∧
    (connectToDb "mydb" ⟨[], ["_migrations"], []⟩).2.getLast? =
      some (DbOp.waitReady "mydb") := by
  refine ⟨?_, ?_, ?_⟩
  · exact (C9_bootstrap_idempotent "mydb"
      ⟨["mydb"], ["_migrations"], [("_migrations", "timestamp")]⟩).1
      (by decide) (by decide) (by decide)
  · exact (C9_bootstrap_idempotent "mydb" ⟨[], [], []⟩).2.1 (by decide) (by decide)
  · exact (C9_bootstrap_idempotent "mydb" ⟨[], ["_migrations"], []⟩).2.2

/-! ## Loop completion versus final log line -/

theorem upLoop_log_ne_nil (upOk : MigrationInfo → Bool) (genId : Nat → String) :
    ∀ (plan : List MigrationInfo) (k : Nat) (table : List LedgerEntry),
      (upLoop upOk genId k plan table).log ≠ [] := by
  intro plan k table
  cases plan with
  | nil => simp [upLoop]
  | cons m rest =>
      by_cases hm : upOk m = true
      · simp only [upLoop]
        rw [if_pos hm]
        simp
      · simp only [upLoop]
        rw [if_neg hm]
        simp

theorem downLoop_log_ne_nil (downOk : LedgerEntry → Bool) :
    ∀ (plan : List LedgerEntry) (table : List LedgerEntry),
      (downLoop downOk plan table).log ≠ [] := by
  intro plan table
  cases plan with
  | nil => simp [downLoop]
  | cons e rest =>
      by_cases he : downOk e = true
      · simp only [downLoop]
        rw [if_pos he]
        simp
      · simp only [downLoop]
        rw [if_neg he]
        simp

theorem upLoop_completed_iff (upOk : MigrationInfo → Bool) (genId : Nat → String) :
    ∀ (plan : List MigrationInfo) (k : Nat) (table : List LedgerEntry),
      (upLoop upOk genId k plan table).completed = true ↔
        (upLoop upOk genId k plan table).log.getLast? = some LogEvent.upSuccessful := by
  intro plan
  induction plan with
  | nil =>
      intro k table
      simp [upLoop]
  | cons m rest ih =>
      intro k table
      by_cases hm : upOk m = true
      · simp only [upLoop]
        rw [if_pos hm]
        dsimp only
        have ihr := ih (k + 1) (table ++ [⟨genId k, m.name, m.timestamp⟩])
        have hne := upLoop_log_ne_nil upOk genId rest (k + 1)
          (table ++ [⟨genId k, m.name, m.timestamp⟩])
        cases hr : (upLoop upOk genId (k + 1) rest
            (table ++ [⟨genId k, m.name, m.timestamp⟩])).log with
        | nil => exact absurd hr hne
        | cons y ys =>
            rw [hr] at ihr
            rw [List.getLast?_cons_cons]
            exact ihr
      · simp only [upLoop]
        rw [if_neg hm]
        simp

theorem downLoop_completed_iff (downOk : LedgerEntry → Bool) :
    ∀ (plan : List LedgerEntry) (table : List LedgerEntry),
      (downLoop downOk plan table).completed = true ↔
        (downLoop downOk plan table).log.getLast? = some LogEvent.downSuccessful := by
  intro plan
  induction plan with
  | nil =>
      intro table
      simp [downLoop]
  | cons e rest ih =>
      intro table
      by_cases he : downOk e = true
      · simp only [downLoop]
        rw [if_pos he]
        dsimp only
        have ihr := ih (deleteById table e.id)
        have hne := downLoop_log_ne_nil downOk rest (deleteById table e.id)
        cases hr : (downLoop downOk rest (deleteById table e.id)).log with
        | nil => exact absurd hr hne
        | cons y ys =>
            rw [hr] at ihr
            rw [List.getLast?_cons_cons]
            exact ihr
      · simp only [downLoop]
        rw [if_neg he]
        simp

/-- C10 (amended): the current TypeScript source (`src/migrate.ts`) never
drains the connection pool on any exit path of `up` or `down`; the compiled
variant (`part_000`) drains exactly on the full-completion path — the one
ending in the success log — and not on the no-pending / empty-ledger early
return nor on the halt-on-failure return. -/
theorem C10_drain_policy (all : Bool) (upOk : MigrationInfo → Bool)
    (downOk : LedgerEntry → Bool) (genId : Nat → String) (s : DbState) :
    (up all upOk genId s).drained = false ∧
    (down all downOk s).drained = false ∧
    ((upCompiled all upOk genId s).drained = true ↔
      (upCompiled all upOk genId s).log.getLast? = some LogEvent.upSuccessful) ∧
    ((downCompiled all downOk s).drained = true ↔
      (downCompiled all downOk s).log.getLast? = some LogEvent.downSuccessful) := by
  refine ⟨?_, ?_, ?_, ?_⟩
  · by_cases hp : getMigrationsExcept (orderByTimestamp s.table).getLast? s.files
        (if all then -1 else 1) = []
    · rw [up_plan_nil hp]
    · rw [up_plan_ne_nil hp]
  · by_cases ht : s.table = []
    · rw [down_table_nil ht]
    · rw [down_table_ne_nil ht]
  · by_cases hp : getMigrationsExcept (orderByTimestamp s.table).getLast? s.files
        (if all then -1 else 1) = []
    · rw [upCompiled_plan_nil hp]
      simp
    · rw [upCompiled_plan_ne_nil hp]
      exact upLoop_completed_iff upOk genId _ 0 s.table
  · by_cases ht : s.table = []
    · rw [downCompiled_table_nil ht]
      simp
    · rw [downCompiled_table_ne_nil ht]
      exact downLoop_completed_iff downOk _ s.table

/-- C10 witness: the drain policies evaluated on a concrete one-migration
state. -/
theorem C10_drain_policy_witness :
    (up true (fun _ => true) (fun _ => "g0")
      ⟨["20230101000000-init.ts"], []⟩).drained = false ∧
    (down true (fun _ => true) ⟨["20230101000000-init.ts"], []⟩).drained = false ∧
    ((upCompiled true (fun _ => true) (fun _ => "g0")
        ⟨["20230101000000-init.ts"], []⟩).drained = true ↔
      (upCompiled true (fun _ => true) (fun _ => "g0")
        ⟨["20230101000000-init.ts"], []⟩).log.getLast? = some LogEvent.upSuccessful) ∧
    ((downCompiled true (fun _ => true) ⟨["20230101000000-init.ts"], []⟩).drained = true ↔
      (downCompiled true (fun _ => true)
        ⟨["20230101000000-init.ts"], []⟩).log.getLast? = some LogEvent.downSuccessful) :=
  C10_drain_policy true (fun _ => true) (fun _ => true) (fun _ => "g0")
    ⟨["20230101000000-init.ts"], []⟩

/-- C10 counterexample: a fully successful `up --all` and `down --all` of the
TypeScript source return with the pool not drained, and even the compiled
variant returns undrained from the halt-on-failure path and the early
no-new-migrations return. -/
theorem C10_counterexample :
    (up true (fun _ => true) (fun _ => "g0")
        ⟨["20230101000000-init.ts"], []⟩).log.getLast? = some LogEvent.upSuccessful ∧
    (up true (fun _ => true) (fun _ => "g0")
        ⟨["20230101000000-init.ts"], []⟩).drained = false ∧
    (down true (fun _ => true) ⟨[], [⟨"i1", "a", "20230101000000"⟩]⟩).log.getLast? =
      some LogEvent.downSuccessful ∧
    (down true (fun _ => true) ⟨[], [⟨"i1", "a", "20230101000000"⟩]⟩).drained = false ∧
    (upCompiled true (fun _ => false) (fun _ => "g0")
        ⟨["20230101000000-init.ts"], []⟩).drained = false ∧
    (upCompiled true (fun _ => true) (fun _ => "g0") ⟨[], []⟩).drained = false := by
  refine ⟨by decide, by decide, by decide, by decide, by decide, by decide⟩

/-! ## Decomposing a matching filename -/

theorem isDigit_ne_dash {c : Char} (h : c.isDigit = true) : c ≠ '-' := by
  intro h0
  subst h0
  exact absurd h (by decide)

theorem charIndexOfAux_append (c : Char) :
    ∀ (l₁ : List Char), (∀ x ∈ l₁, x ≠ c) → ∀ l₂ : List Char,
      charIndexOfAux c (l₁ ++ c :: l₂) = some l₁.length
  | [], _, l₂ => by simp [charIndexOfAux]
  | x :: xs, h, l₂ => by
      have hx : x ≠ c := h x (List.mem_cons_self x xs)
      simp only [List.cons_append, charIndexOfAux, List.append_eq]
      rw [if_neg hx,
        charIndexOfAux_append c xs (fun y hy => h y (List.mem_cons_of_mem x hy)) l₂]
      rfl

theorem charIndexOfAux_dot_ext (a : Char) (ha : a ≠ '.') :
    ∀ rest : List Char, charIndexOfAux '.' ('s' :: a :: '.' :: rest) = some 2 := by
  intro rest
  unfold charIndexOfAux
  rw [if_neg (by decide)]
  unfold charIndexOfAux
  rw [if_neg ha]
  unfold charIndexOfAux
  rw [if_pos rfl]
  rfl

/-- A filename accepted by `rxMigrationFile` splits as fourteen digits, a
dash, a middle part, and a two-letter extension preceded by a dot. -/
theorem matches_decomp {f : String} (h : matchesMigrationFile f = true) :
    ∃ pre mid ext : List Char,
      f.data = pre ++ '-' :: (mid ++ ext) ∧
      pre.length = 14 ∧
      (∀ x ∈ pre, x.isDigit = true) ∧
      (ext = ".js".data ∨ ext = ".ts".data) ∧
      18 ≤ f.data.length ∧
      mid.length = f.data.length - 18 := by
  unfold matchesMigrationFile at h
  simp only [Bool.and_eq_true, decide_eq_true_eq, List.all_eq_true, beq_iff_eq,
    Bool.or_eq_true] at h
  obtain ⟨⟨⟨⟨h1, h2⟩, h3⟩, _⟩, h5⟩ := h
  have h3' : f.data[14]? = some '-' := by simpa using h3
  obtain ⟨h14, hgot⟩ := List.getElem?_eq_some.mp h3'
  have hdd : (f.data.drop 15).drop (f.data.length - 18) =
      f.data.drop (f.data.length - 3) := by
    rw [List.drop_drop]
    congr 1
    omega
  refine ⟨f.data.take 14, (f.data.drop 15).take (f.data.length - 18),
    f.data.drop (f.data.length - 3), ?_, ?_, ?_, h5, h1, ?_⟩
  · conv_lhs => rw [← List.take_append_drop 14 f.data]
    congr 1
    rw [List.drop_eq_getElem_cons h14, hgot]
    congr 1
    calc f.data.drop (14 + 1)
        = (f.data.drop 15).take (f.data.length - 18) ++
            (f.data.drop 15).drop (f.data.length - 18) :=
          (List.take_append_drop _ _).symm
      _ = (f.data.drop 15).take (f.data.length - 18) ++
            f.data.drop (f.data.length - 3) := by rw [hdd]
  · rw [List.length_take]
    omega
  · intro x hx
    exact h2 x hx
  · rw [List.length_take, List.length_drop]
    omega

theorem jsSubstring_of_bounds {s : List Char} {a b : Int} (h0 : 0 ≤ a) (hab : a ≤ b)
    (hb : b ≤ (s.length : Int)) :
    jsSubstring s a b = (s.take b.toNat).drop a.toNat := by
  simp only [jsSubstring]
  rw [max_eq_left h0, max_eq_left (le_trans h0 hab), min_eq_left (le_trans hab hb),
    min_eq_left hb, min_eq_left hab, max_eq_right hab]

/-- How the parser of `migrate.ts` lines 90-97 acts on a decomposed matching
filename: the timestamp is the digit block, the name is the middle part. -/
theorem parse_of_decomp {f : String} {pre mid ext : List Char}
    (hf : f.data = pre ++ '-' :: (mid ++ ext))
    (hpre : pre.length = 14)
    (hdig : ∀ x ∈ pre, x.isDigit = true)
    (hext : ext = ".js".data ∨ ext = ".ts".data) :
    parseMigrationFile f = ⟨String.mk mid, String.mk pre, f⟩ := by
  have hext3 : ext.length = 3 := by rcases hext with h' | h' <;> subst h' <;> rfl
  have hlen : f.data.length = 18 + mid.length := by
    rw [hf]
    simp [hpre, hext3]
    omega
  have hnd : ∀ x ∈ pre, x ≠ '-' := fun x hx => isDigit_ne_dash (hdig x hx)
  have hidx : jsIndexOf f.data '-' = (14 : Int) := by
    have haux : charIndexOfAux '-' f.data = some 14 := by
      rw [hf, charIndexOfAux_append '-' pre hnd (mid ++ ext), hpre]
    unfold jsIndexOf
    rw [haux]
    rfl
  have hlast : jsLastIndexOf f.data '.' = ((f.data.length - 3 : Nat) : Int) := by
    have haux : charIndexOfAux '.' f.data.reverse = some 2 := by
      rcases hext with h' | h' <;> subst h'
      · have hrev : f.data.reverse = 's' :: 'j' :: '.' :: (mid.reverse ++ '-' :: pre.reverse) := by
          rw [hf]
          simp
        rw [hrev]
        exact charIndexOfAux_dot_ext 'j' (by decide) _
      · have hrev : f.data.reverse = 's' :: 't' :: '.' :: (mid.reverse ++ '-' :: pre.reverse) := by
          rw [hf]
          simp
        rw [hrev]
        exact charIndexOfAux_dot_ext 't' (by decide) _
    unfold jsLastIndexOf
    rw [haux]
    congr 1
  have hts : jsSubstring f.data 0 14 = pre := by
    rw [jsSubstring_of_bounds (by omega) (by omega) (by rw [hlen]; omega)]
    show (f.data.take 14).drop 0 = pre
    rw [List.drop_zero, hf]
    exact List.take_left' hpre
  have hname : jsSubstring f.data (14 + 1) ((f.data.length - 3 : Nat) : Int) = mid := by
    rw [jsSubstring_of_bounds (by omega) (by rw [hlen]; omega) (by rw [hlen]; omega)]
    show (f.data.take (f.data.length - 3)).drop 15 = mid
    have hf' : f.data = (pre ++ '-' :: mid) ++ ext := by
      rw [hf]
      simp
    rw [hf', List.take_left' (by simp [hpre]; omega)]
    have hsplit : pre ++ '-' :: mid = (pre ++ ['-']) ++ mid := by simp
    rw [hsplit, List.drop_left' (by simp [hpre])]
  simp only [parseMigrationFile]
  rw [hidx, hlast, hname, hts]

theorem string_mk_append (l₁ l₂ : List Char) :
    String.mk l₁ ++ String.mk l₂ = String.mk (l₁ ++ l₂) := rfl

/-- C8 (amended): for every matching on-disk filename, the forward loading
path (`up`, line 104) resolves `root/migrations/<timestamp>-<name>.<ext>` with
the extension, while the backward loading path (`down` through
`requireMigrations`, lines 116-126) resolves `root/migrations/<timestamp>-<name>`
without the extension, relying on the loader's extension resolution. -/
theorem C8_load_path_extension (root f : String) (h : matchesMigrationFile f = true) :
    (extOf f = ".js" ∨ extOf f = ".ts") ∧
    f = (parseMigrationFile f).timestamp ++ "-" ++ (parseMigrationFile f).name ++ extOf f ∧
    forwardFilepath root (parseMigrationFile f) =
      pathJoin (pathJoin root "migrations")
        ((parseMigrationFile f).timestamp ++ "-" ++ (parseMigrationFile f).name ++ extOf f) ∧
    (∀ id : String,
      requireFilepath root ⟨id, (parseMigrationFile f).name, (parseMigrationFile f).timestamp⟩ =
        pathJoin (pathJoin root "migrations")
          ((parseMigrationFile f).timestamp ++ "-" ++ (parseMigrationFile f).name)) := by
  obtain ⟨pre, mid, ext, hf, hpre, hdig, hext, h18, hmid⟩ := matches_decomp h
  have hparse := parse_of_decomp hf hpre hdig hext
  have hext3 : ext.length = 3 := by rcases hext with h' | h' <;> subst h' <;> rfl
  have hextOf : extOf f = String.mk ext := by
    unfold extOf
    congr 1
    have hf' : f.data = (pre ++ '-' :: mid) ++ ext := by
      rw [hf]
      simp
    have hlen : f.data.length = 18 + mid.length := by
      rw [hf]
      simp [hpre, hext3]
      omega
    rw [hf', List.drop_left' (by simp [hpre]; omega)]
  have hfdecomp : f = (parseMigrationFile f).timestamp ++ "-" ++
      (parseMigrationFile f).name ++ extOf f := by
    rw [hparse, hextOf]
    show f = String.mk pre ++ String.mk ['-'] ++ String.mk mid ++ String.mk ext
    have hdata : f.data = ((pre ++ ['-']) ++ mid) ++ ext := by
      rw [hf]
      simp
    exact congrArg String.mk hdata
  refine ⟨?_, hfdecomp, ?_, ?_⟩
  · rcases hext with h' | h'
    · exact Or.inl (by rw [hextOf, h'])
    · exact Or.inr (by rw [hextOf, h'])
  · show pathJoin (pathJoin root "migrations") (parseMigrationFile f).filename = _
    have hfn : (parseMigrationFile f).filename = f := by rw [hparse]
    rw [hfn]
    rw [← hfdecomp]
  · intro id
    rfl

/-- C8 witness: the concrete file `20230101000000-init.ts`, loaded forward
with its extension and backward without it. -/
theorem C8_load_path_extension_witness :
    (extOf "20230101000000-init.ts" = ".js" ∨ extOf "20230101000000-init.ts" = ".ts") ∧
    requireFilepath "/app" ⟨"id0", (parseMigrationFile "20230101000000-init.ts").name,
        (parseMigrationFile "20230101000000-init.ts").timestamp⟩ =
      pathJoin (pathJoin "/app" "migrations")
        ((parseMigrationFile "20230101000000-init.ts").timestamp ++ "-" ++
          (parseMigrationFile "20230101000000-init.ts").name) :=
  ⟨(C8_load_path_extension "/app" "20230101000000-init.ts" (by decide)).1,
    (C8_load_path_extension "/app" "20230101000000-init.ts" (by decide)).2.2.2 "id0"⟩

/-- C8 counterexample: for the identity parsed from `20230101000000-init.ts`,
the backward loading path resolves `/app/migrations/20230101000000-init`,
which is not the extension-bearing path the claim asserts (for either allowed
extension), while the forward path does carry the extension. -/
theorem C8_counterexample :
    matchesMigrationFile "20230101000000-init.ts" = true ∧
    requireFilepath "/app" ⟨"id0", "init", "20230101000000"⟩ =
      "/app/migrations/20230101000000-init" ∧
    requireFilepath "/app" ⟨"id0", "init", "20230101000000"⟩ ≠
      pathJoin (pathJoin "/app" "migrations") "20230101000000-init.ts" ∧
    requireFilepath "/app" ⟨"id0", "init", "20230101000000"⟩ ≠
      pathJoin (pathJoin "/app" "migrations") "20230101000000-init.js" ∧
    forwardFilepath "/app" (parseMigrationFile "20230101000000-init.ts") =
      pathJoin (pathJoin "/app" "migrations") "20230101000000-init.ts" := by
  refine ⟨by decide, by decide, by decide, by decide, by decide⟩

end Migrate
